import Mathlib

/-!
Verification of the order-stamp generator (`src/orderstamp.ts`).

Shallow embedding conventions:

* A JavaScript string is modelled as a `List ℕ` of its UTF-16 code units;
  JavaScript string comparison (`<`, `>` on strings) is lexicographic
  comparison of code units, modelled by `lexLt` (`List.Lex (· < ·)`).
* JavaScript numbers are modelled as exact rationals `ℚ`; `Math.floor` /
  `Math.ceil` are `Int.floor` / `Int.ceil`.
* The process-wide randomness source `Math.random()` is modelled as an
  injected stream `g : ℕ → ℚ` of draws, each assumed to lie in `[0, 1)`;
  a call to `Math.random()` consumes the next element of the stream, so the
  stateful functions thread an explicit stream index.
* `String.fromCharCode` applies ECMAScript `ToUint16` (truncate toward
  zero, then reduce mod 2^16).  `charCodeAt` out of range yields `NaN` in
  JavaScript; this is modelled by `Option ℚ` (`none` = `NaN`).  Feeding
  `NaN` to `randomInt` yields `NaN` (the strict-equality test is false, so
  a draw is still consumed and all arithmetic propagates `NaN`), and
  `String.fromCharCode(NaN)` is the code unit 0; `fromCharCode none = 0`
  captures this composite behaviour.
* The ELEN numeric codec is an external npm dependency, not part of this
  repository; following the specification it is modelled as an abstract
  parameter `encode : ℚ → List ℕ` about which only the stated contract
  (injectivity and order preservation) may be assumed.
* `throw` in `between` is modelled by `Except String`; every other
  operation of the source contains no throw and is embedded as a total
  function.
* The time source `performance.now()` is an injected parameter `now : ℚ`.
-/

/-- JavaScript string comparison over UTF-16 code-unit lists. -/
def lexLt (a b : List ℕ) : Prop := List.Lex (· < ·) a b

instance : DecidableRel lexLt :=
  fun a b => inferInstanceAs (Decidable (List.Lex (· < ·) a b))

/-- `export const CHAR_CODE_MIN = 1`. -/
def CHAR_CODE_MIN : ℕ := 1

/-- `export const CHAR_CODE_MAX = 254`. -/
def CHAR_CODE_MAX : ℕ := 254

/-- `const RANDOM_SUFFIX_LEN = 16`. -/
def RANDOM_SUFFIX_LEN : ℕ := 16

/-- `randomInt(min, max)` from the source, with the `Math.random()` result
passed explicitly as `r`:
`if (min === max) return min; min = Math.ceil(min); max = Math.floor(max);
return Math.floor(r * (max - min)) + min;`. -/
def randomInt (mn mx r : ℚ) : ℚ :=
  if mn = mx then mn
  else ((⌊r * ((⌊mx⌋ - ⌈mn⌉ : ℤ) : ℚ)⌋ + ⌈mn⌉ : ℤ) : ℚ)

/-- ECMAScript `ToUint16`: truncate toward zero, reduce mod 2^16. -/
def toUint16 (q : ℚ) : ℕ := ((if 0 ≤ q then ⌊q⌋ else ⌈q⌉) % 65536).toNat

/-- `String.fromCharCode` on a possibly-`NaN` (`none`) argument. -/
def fromCharCode : Option ℚ → ℕ
  | none => 0
  | some q => toUint16 q

/-- `s.charCodeAt(i)`: the code unit, or `NaN` (`none`) when out of range. -/
def charCodeAt (s : List ℕ) (i : ℕ) : Option ℚ := (s.get? i).map (fun c => (c : ℚ))

/-- One call of `randomInt` against the draw stream `g` at stream index `i`.
Returns the result and the next stream index.  A draw is consumed exactly
when the strict-equality test `min === max` is false, which includes every
case where an argument is `NaN` (`none`). -/
def randomIntAt (mn mx : Option ℚ) (g : ℕ → ℚ) (i : ℕ) : Option ℚ × ℕ :=
  match mn, mx with
  | some a, some b => if a = b then (some a, i) else (some (randomInt a b (g i)), i + 1)
  | _, _ => (none, i + 1)

/-- `commonPrefixLen(str1, str2)` from the source: count leading positions
with identical characters, stopping at the first divergence or at the end
of the shorter string. -/
def commonPrefixLen : List ℕ → List ℕ → ℕ
  | a :: s, b :: t => if a = b then commonPrefixLen s t + 1 else 0
  | _, _ => 0

/-- The scan loop of `between` over `prev.substring(prefixLen + 1)`:
copy characters equal to or above `CHAR_CODE_MAX`; at the first character
`c` below it, append `randomInt(c + 1, CHAR_CODE_MAX)` and stop.  Returns
the appended characters and the next draw-stream index. -/
def betweenFix : List ℕ → (ℕ → ℚ) → ℕ → List ℕ × ℕ
  | [], _, i => ([], i)
  | c :: cs, g, i =>
    if c < CHAR_CODE_MAX then
      let v := randomIntAt (some ((c : ℚ) + 1)) (some ((CHAR_CODE_MAX : ℕ) : ℚ)) g i
      ([fromCharCode v.1], v.2)
    else
      let rest := betweenFix cs g i
      (fromCharCode (some ((c : ℚ))) :: rest.1, rest.2)

/-- The random-suffix loop (`RANDOM_SUFFIX_LEN` iterations of
`String.fromCharCode(randomInt(CHAR_CODE_MIN, CHAR_CODE_MAX))`), starting
at draw-stream index `i`. -/
def randomSuffix (g : ℕ → ℚ) : ℕ → ℕ → List ℕ
  | _, 0 => []
  | i, k + 1 =>
    fromCharCode (some (randomInt ((CHAR_CODE_MIN : ℕ) : ℚ) ((CHAR_CODE_MAX : ℕ) : ℚ) (g i)))
      :: randomSuffix g (i + 1) k

/-- `between(prev, next)` from the source.  `g` is the injected
`Math.random()` stream.  Throwing is modelled by `Except.error`. -/
def between (prev next : List ℕ) (g : ℕ → ℚ) : Except String (List ℕ) :=
  if prev = next then Except.error ("prev and next must be different")
  else
    let p := if lexLt next prev then next else prev
    let n := if lexLt next prev then prev else next
    let prefixLen := commonPrefixLen p n
    let minChar := if prefixLen < p.length then charCodeAt p prefixLen else charCodeAt p 0
    let maxChar := if 0 < prefixLen then charCodeAt n prefixLen else charCodeAt n 0
    let c0 := randomIntAt minChar maxChar g 0
    let fix := betweenFix (p.drop (prefixLen + 1)) g c0.2
    Except.ok (p.take prefixLen ++ fromCharCode c0.1 :: (fix.1 ++ randomSuffix g fix.2 RANDOM_SUFFIX_LEN))

/-- `from(value, key?)` from the source (`from` is a Lean keyword, and the
specification calls this operation `fromValue`).  The external ELEN codec
is the abstract parameter `encode`. -/
def fromValue (encode : ℚ → List ℕ) (value : ℚ) (key : Option (List ℕ)) (g : ℕ → ℚ) : List ℕ :=
  match key with
  | some k => encode value ++ k
  | none => encode value ++ randomSuffix g 0 RANDOM_SUFFIX_LEN

/-- `end()` from the source: `from(performance.now())` with the time source
injected as `now` (`end` is a Lean keyword). -/
def endStamp (encode : ℚ → List ℕ) (now : ℚ) (g : ℕ → ℚ) : List ℕ :=
  fromValue encode now none g

/-- `start()` from the source: `from(-performance.now())`. -/
def startStamp (encode : ℚ → List ℕ) (now : ℚ) (g : ℕ → ℚ) : List ℕ :=
  fromValue encode (-now) none g

/-- Helper for the codec-contract analysis: lists that are nonempty and do
not end in the code 0.  Restricted to such lists, lexicographic order is a
dense order, which is what lets an order copy of `ℚ` be found inside it. -/
def noTrailZero : List ℕ → Bool
  | [] => false
  | [a] => a ≠ 0
  | _ :: b :: t => noTrailZero (b :: t)

/-- Helper: a list strictly lexicographically below `r` (and in the
`noTrailZero` set) whenever `r` is in the `noTrailZero` set. -/
def belowList : List ℕ → List ℕ
  | [] => []
  | a :: r => if a = 0 then 0 :: belowList r else [a - 1, 1]

/-- Helper: a list strictly lexicographically between `u` and `v` (for
`u < v` with `v` in the `noTrailZero` set). -/
def midList : List ℕ → List ℕ → List ℕ
  | [], v => belowList v
  | _ :: _, [] => []
  | a :: u, b :: v => if a = b then a :: midList u v else (a :: u) ++ [1]

/-! ### Helper lemmas about `noTrailZero`, `belowList`, `midList` -/

theorem noTrailZero_ne_nil {l : List ℕ} (h : noTrailZero l = true) : l ≠ [] := by
  intro e; subst e; simp [noTrailZero] at h

theorem noTrailZero_cons {a : ℕ} {t : List ℕ} (h : noTrailZero t = true) :
    noTrailZero (a :: t) = true := by
  cases t with
  | nil => simp [noTrailZero] at h
  | cons b t' => exact h

theorem noTrailZero_append_one (l : List ℕ) : noTrailZero (l ++ [1]) = true := by
  induction l with
  | nil => rfl
  | cons a t ih => exact noTrailZero_cons ih

theorem lex_self_append_cons (l : List ℕ) (x : ℕ) (s : List ℕ) : lexLt l (l ++ x :: s) := by
  induction l with
  | nil => exact List.Lex.nil
  | cons a t ih => exact List.Lex.cons ih

theorem belowList_spec : ∀ r : List ℕ, noTrailZero r = true →
    lexLt (belowList r) r ∧ noTrailZero (belowList r) = true := by
  intro r
  induction r with
  | nil => intro h; simp [noTrailZero] at h
  | cons a t ih =>
    intro h
    cases t with
    | nil =>
      have ha : a ≠ 0 := by simpa [noTrailZero] using h
      simp only [belowList, if_neg ha]
      exact ⟨List.Lex.rel (Nat.sub_lt (Nat.pos_of_ne_zero ha) one_pos), rfl⟩
    | cons b t' =>
      have h' : noTrailZero (b :: t') = true := h
      by_cases ha : a = 0
      · subst ha
        simp only [belowList, if_pos rfl]
        obtain ⟨ih1, ih2⟩ := ih h'
        exact ⟨List.Lex.cons ih1, noTrailZero_cons ih2⟩
      · simp only [belowList, if_neg ha]
        exact ⟨List.Lex.rel (Nat.sub_lt (Nat.pos_of_ne_zero ha) one_pos), rfl⟩

theorem midList_spec : ∀ u v : List ℕ, lexLt u v → noTrailZero v = true →
    (noTrailZero u = true ∨ u = []) →
    lexLt u (midList u v) ∧ lexLt (midList u v) v ∧ noTrailZero (midList u v) = true := by
  intro u
  induction u with
  | nil =>
    intro v h hv _
    cases v with
    | nil => cases h
    | cons b t =>
      simp only [midList]
      obtain ⟨h1, h2⟩ := belowList_spec _ hv
      refine ⟨?_, h1, h2⟩
      cases e : belowList (b :: t) with
      | nil => exact absurd e (noTrailZero_ne_nil h2)
      | cons c cs => exact List.Lex.nil
  | cons a u' ih =>
    intro v h hv hu
    cases v with
    | nil => cases h
    | cons b v' =>
      cases h with
      | rel hab =>
        have hne : a ≠ b := ne_of_lt hab
        simp only [midList, if_neg hne]
        exact ⟨lex_self_append_cons _ _ _, List.Lex.rel hab, noTrailZero_append_one _⟩
      | cons h' =>
        simp only [midList, if_pos rfl]
        have hv' : noTrailZero v' = true := by
          cases v' with
          | nil => cases h'
          | cons c t => exact hv
        have hu' : noTrailZero u' = true ∨ u' = [] := by
          cases u' with
          | nil => exact Or.inr rfl
          | cons c t =>
            rcases hu with h1 | h1
            · exact Or.inl h1
            · cases h1
        obtain ⟨m1, m2, m3⟩ := ih v' h' hv' hu'
        exact ⟨List.Lex.cons m1, List.Lex.cons m2, noTrailZero_cons m3⟩

theorem lex_append_strict : ∀ {u v : List ℕ}, lexLt u v → ¬ u <+: v →
    ∀ s t : List ℕ, lexLt (u ++ s) (v ++ t) := by
  intro u v h
  induction h with
  | nil => intro hp; exact absurd List.nil_prefix hp
  | @rel a as b bs hab => intro _ s t; exact List.Lex.rel hab
  | @cons a as bs h' ih =>
    intro hp s t
    refine List.Lex.cons (ih ?_ s t)
    intro hh
    exact hp (List.cons_prefix_cons.mpr ⟨rfl, hh⟩)

/-- Helper: the codec contract of §4.1 (injective, strictly order preserving)
admits a codec whose value at `0` is a strict prefix of its value at `1`.
The construction embeds `ℚ` order-preservingly into the dense suborder of
`noTrailZero` lists, then splices the two designated values in. -/
theorem exists_bad_encode :
    ∃ e : ℚ → List ℕ, (∀ x y : ℚ, x < y → lexLt (e x) (e y)) ∧ Function.Injective e ∧
      e 0 = [65] ∧ e 1 = [65, 66] := by
  haveI hd : DenselyOrdered {l : List ℕ // noTrailZero l = true} := by
    constructor
    rintro ⟨u, hu⟩ ⟨v, hv⟩ h
    have h' : lexLt u v := h
    obtain ⟨m1, m2, m3⟩ := midList_spec u v h' hv (Or.inl hu)
    exact ⟨⟨midList u v, m3⟩, m1, m2⟩
  haveI hnt : Nontrivial {l : List ℕ // noTrailZero l = true} := by
    refine ⟨⟨[1], rfl⟩, ⟨[2], rfl⟩, ?_⟩
    intro hh
    have : ([1] : List ℕ) = [2] := congrArg Subtype.val hh
    simp at this
  obtain ⟨f⟩ := Order.embedding_from_countable_to_dense ℚ {l : List ℕ // noTrailZero l = true}
  set e : ℚ → List ℕ := fun q =>
    if q < 0 then 64 :: (f q).val
    else if q = 0 then [65]
    else if q < 1 then 65 :: 65 :: (f q).val
    else if q = 1 then [65, 66]
    else 65 :: 67 :: (f q).val with he
  have hmono : ∀ x y : ℚ, x < y → lexLt (e x) (e y) := by
    intro x y hxy
    have hfm : ∀ {a b : ℚ}, a < b → lexLt (f a).val (f b).val := by
      intro a b hab
      exact f.strictMono hab
    by_cases hx0 : x < 0
    · by_cases hy0 : y < 0
      · simp only [he, if_pos hx0, if_pos hy0]
        exact List.Lex.cons (hfm hxy)
      · by_cases hy1 : y = 0
        · simp only [he, if_pos hx0, if_neg hy0, if_pos hy1]
          exact List.Lex.rel (by norm_num)
        · by_cases hy2 : y < 1
          · simp only [he, if_pos hx0, if_neg hy0, if_neg hy1, if_pos hy2]
            exact List.Lex.rel (by norm_num)
          · by_cases hy3 : y = 1
            · simp only [he, if_pos hx0, if_neg hy0, if_neg hy1, if_neg hy2, if_pos hy3]
              exact List.Lex.rel (by norm_num)
            · simp only [he, if_pos hx0, if_neg hy0, if_neg hy1, if_neg hy2, if_neg hy3]
              exact List.Lex.rel (by norm_num)
    · by_cases hx1 : x = 0
      · have hy0 : ¬ y < 0 := by subst hx1; linarith
        have hy1 : y ≠ 0 := by subst hx1; exact ne_of_gt hxy
        by_cases hy2 : y < 1
        · simp only [he, if_neg hx0, if_pos hx1, if_neg hy0, if_neg hy1, if_pos hy2]
          exact List.Lex.cons List.Lex.nil
        · by_cases hy3 : y = 1
          · simp only [he, if_neg hx0, if_pos hx1, if_neg hy0, if_neg hy1, if_neg hy2,
              if_pos hy3]
            exact List.Lex.cons List.Lex.nil
          · simp only [he, if_neg hx0, if_pos hx1, if_neg hy0, if_neg hy1, if_neg hy2,
              if_neg hy3]
            exact List.Lex.cons List.Lex.nil
      · by_cases hx2 : x < 1
        · have hy0 : ¬ y < 0 := by intro hh; have hx0' : (0:ℚ) < x := lt_of_le_of_ne (not_lt.mp hx0) (Ne.symm hx1); linarith
          have hy1 : y ≠ 0 := by intro hh; subst hh; have hx0' : (0:ℚ) < x := lt_of_le_of_ne (not_lt.mp hx0) (Ne.symm hx1); linarith
          by_cases hy2 : y < 1
          · simp only [he, if_neg hx0, if_neg hx1, if_pos hx2, if_neg hy0, if_neg hy1,
              if_pos hy2]
            exact List.Lex.cons (List.Lex.cons (hfm hxy))
          · by_cases hy3 : y = 1
            · simp only [he, if_neg hx0, if_neg hx1, if_pos hx2, if_neg hy0, if_neg hy1,
                if_neg hy2, if_pos hy3]
              exact List.Lex.cons (List.Lex.rel (by norm_num))
            · simp only [he, if_neg hx0, if_neg hx1, if_pos hx2, if_neg hy0, if_neg hy1,
                if_neg hy2, if_neg hy3]
              exact List.Lex.cons (List.Lex.rel (by norm_num))
        · by_cases hx3 : x = 1
          · have hy0 : ¬ y < 0 := by subst hx3; linarith
            have hy1 : y ≠ 0 := by subst hx3; intro hh; subst hh; linarith
            have hy2 : ¬ y < 1 := by subst hx3; linarith
            have hy3 : y ≠ 1 := by subst hx3; exact ne_of_gt hxy
            simp only [he, if_neg hx0, if_neg hx1, if_neg hx2, if_pos hx3, if_neg hy0,
              if_neg hy1, if_neg hy2, if_neg hy3]
            exact List.Lex.cons (List.Lex.rel (by norm_num))
          · have hx4 : (1:ℚ) < x := lt_of_le_of_ne (not_lt.mp hx2) (Ne.symm hx3)
            have hy0 : ¬ y < 0 := by linarith
            have hy1 : y ≠ 0 := by intro hh; subst hh; linarith
            have hy2 : ¬ y < 1 := by linarith
            have hy3 : y ≠ 1 := by intro hh; subst hh; linarith
            simp only [he, if_neg hx0, if_neg hx1, if_neg hx2, if_neg hx3, if_neg hy0,
              if_neg hy1, if_neg hy2, if_neg hy3]
            exact List.Lex.cons (List.Lex.cons (hfm hxy))
  have hinj : Function.Injective e := by
    intro a b hab
    by_contra hne
    rcases Ne.lt_or_lt hne with hlt | hlt
    · have h1 : lexLt (e a) (e b) := hmono _ _ hlt
      rw [hab] at h1
      exact (List.Lex.isAsymm (α := ℕ) (· < ·)).asymm _ _ h1 h1
    · have h1 : lexLt (e b) (e a) := hmono _ _ hlt
      rw [hab] at h1
      exact (List.Lex.isAsymm (α := ℕ) (· < ·)).asymm _ _ h1 h1
  refine ⟨e, hmono, hinj, ?_, ?_⟩
  · simp [he]
  · norm_num [he]

/-! ### Numeric helper lemmas -/

theorem randomInt_core (mn mx r : ℚ) (h0 : 0 ≤ r) (h1 : r < 1) (h : ⌈mn⌉ < ⌊mx⌋) :
    ∃ z : ℤ, randomInt mn mx r = (z : ℚ) ∧ ⌈mn⌉ ≤ z ∧ z < ⌊mx⌋ := by
  have hne : mn ≠ mx := by
    intro e; subst e
    exact absurd h (not_lt.mpr (Int.floor_le_ceil mn))
  have hd : (0:ℚ) < ((⌊mx⌋ - ⌈mn⌉ : ℤ) : ℚ) := by exact_mod_cast sub_pos.mpr h
  refine ⟨⌊r * ((⌊mx⌋ - ⌈mn⌉ : ℤ) : ℚ)⌋ + ⌈mn⌉, ?_, ?_, ?_⟩
  · simp [randomInt, if_neg hne]
  · have hge : (0:ℤ) ≤ ⌊r * ((⌊mx⌋ - ⌈mn⌉ : ℤ) : ℚ)⌋ :=
      Int.floor_nonneg.mpr (mul_nonneg h0 (le_of_lt hd))
    linarith
  · have hlt : ⌊r * ((⌊mx⌋ - ⌈mn⌉ : ℤ) : ℚ)⌋ < ⌊mx⌋ - ⌈mn⌉ := by
      apply Int.floor_lt.mpr
      push_cast
      have := mul_lt_mul_of_pos_right h1 hd
      push_cast at this
      linarith
    linarith

theorem randomInt_natCast (a b : ℕ) (r : ℚ) (hab : a < b) (h0 : 0 ≤ r) (h1 : r < 1) :
    ∃ z : ℕ, randomInt a b r = ((z : ℕ) : ℚ) ∧ a ≤ z ∧ z < b := by
  obtain ⟨z, hz, hz1, hz2⟩ := randomInt_core a b r h0 h1 (by
    rw [Int.ceil_natCast, Int.floor_natCast]; exact_mod_cast hab)
  rw [Int.ceil_natCast] at hz1
  rw [Int.floor_natCast] at hz2
  have hz0 : 0 ≤ z := le_trans (Int.natCast_nonneg a) hz1
  refine ⟨z.toNat, ?_, by omega, by omega⟩
  rw [hz]
  have : ((z.toNat : ℕ) : ℤ) = z := Int.toNat_of_nonneg hz0
  exact_mod_cast congrArg (fun w : ℤ => ((w : ℤ) : ℚ)) this.symm

theorem toUint16_intCast (z : ℤ) (h0 : 0 ≤ z) (h : z < 65536) :
    toUint16 ((z : ℤ) : ℚ) = z.toNat := by
  have hq : (0:ℚ) ≤ ((z : ℤ) : ℚ) := by exact_mod_cast h0
  simp only [toUint16, if_pos hq, Int.floor_intCast]
  rw [Int.emod_eq_of_lt h0 h]

theorem toUint16_natCast (z : ℕ) (h : z < 65536) : toUint16 ((z : ℕ) : ℚ) = z := by
  have h1 := toUint16_intCast (z : ℤ) (Int.natCast_nonneg z) (by exact_mod_cast h)
  simpa using h1

theorem randomSuffix_length (g : ℕ → ℚ) : ∀ (k i : ℕ), (randomSuffix g i k).length = k := by
  intro k
  induction k with
  | zero => intro i; rfl
  | succ k ih => intro i; simp [randomSuffix, ih]

theorem randomSuffix_mem (g : ℕ → ℚ) (hg : ∀ j, 0 ≤ g j ∧ g j < 1) :
    ∀ (k i : ℕ) (c : ℕ), c ∈ randomSuffix g i k → CHAR_CODE_MIN ≤ c ∧ c < CHAR_CODE_MAX := by
  intro k
  induction k with
  | zero => intro i c hc; simp [randomSuffix] at hc
  | succ k ih =>
    intro i c hc
    simp only [randomSuffix, List.mem_cons] at hc
    rcases hc with hc | hc
    · obtain ⟨z, hz, hz1, hz2⟩ := randomInt_natCast CHAR_CODE_MIN CHAR_CODE_MAX (g i)
        (by norm_num [CHAR_CODE_MIN, CHAR_CODE_MAX]) (hg i).1 (hg i).2
      have hz3 : z < 65536 := by
        have : CHAR_CODE_MAX = 254 := rfl
        omega
      subst hc
      simp only [fromCharCode, hz]
      rw [toUint16_natCast z hz3]
      exact ⟨hz1, hz2⟩
    · exact ih (i + 1) c hc

theorem randomInt_zero_draw (a b : ℕ) (h : a ≠ b) : randomInt a b 0 = ((a : ℕ) : ℚ) := by
  have hne : ((a : ℕ) : ℚ) ≠ ((b : ℕ) : ℚ) := by exact_mod_cast h
  simp only [randomInt, if_neg hne, zero_mul, Int.floor_zero, zero_add, Int.ceil_natCast]
  push_cast
  ring

theorem randomSuffix_zero_draws :
    ∀ (k i : ℕ), randomSuffix (fun _ => (0:ℚ)) i k = List.replicate k 1 := by
  intro k
  induction k with
  | zero => intro i; rfl
  | succ k ih =>
    intro i
    rw [List.replicate_succ]
    simp only [randomSuffix, ih]
    congr 1
    rw [randomInt_zero_draw CHAR_CODE_MIN CHAR_CODE_MAX (by norm_num [CHAR_CODE_MIN, CHAR_CODE_MAX])]
    simp only [fromCharCode]
    rw [toUint16_natCast CHAR_CODE_MIN (by norm_num [CHAR_CODE_MIN])]
    rfl

theorem randomInt_q67 :
    randomInt ((CHAR_CODE_MIN : ℕ) : ℚ) ((CHAR_CODE_MAX : ℕ) : ℚ) (66/253) = ((67 : ℕ) : ℚ) := by
  have hne : ((CHAR_CODE_MIN : ℕ) : ℚ) ≠ ((CHAR_CODE_MAX : ℕ) : ℚ) := by
    norm_num [CHAR_CODE_MIN, CHAR_CODE_MAX]
  simp only [randomInt, if_neg hne, Int.ceil_natCast, Int.floor_natCast]
  have h253 : ((((CHAR_CODE_MAX : ℕ) : ℤ) - ((CHAR_CODE_MIN : ℕ) : ℤ) : ℤ) : ℚ) = 253 := by
    norm_num [CHAR_CODE_MIN, CHAR_CODE_MAX]
  rw [h253]
  have hm : (66/253 : ℚ) * 253 = ((66 : ℤ) : ℚ) := by norm_num
  rw [hm, Int.floor_intCast]
  norm_num [CHAR_CODE_MIN]

theorem randomSuffix_q67_draws :
    ∀ (k i : ℕ), randomSuffix (fun _ => (66/253 : ℚ)) i k = List.replicate k 67 := by
  intro k
  induction k with
  | zero => intro i; rfl
  | succ k ih =>
    intro i
    rw [List.replicate_succ]
    simp only [randomSuffix, ih]
    congr 1
    rw [randomInt_q67]
    simp only [fromCharCode]
    rw [toUint16_natCast 67 (by norm_num)]

theorem randomInt_zero_draw_q (a b : ℚ) (h : a ≠ b) : randomInt a b 0 = ((⌈a⌉ : ℤ) : ℚ) := by
  simp only [randomInt, if_neg h, zero_mul, Int.floor_zero, zero_add]

theorem toUint16_q (q : ℚ) (z : ℕ) (h1 : ⌊q⌋ = (z : ℤ)) (h2 : 0 ≤ q) (h3 : z < 65536) :
    toUint16 q = z := by
  simp only [toUint16, if_pos h2, h1]
  rw [Int.emod_eq_of_lt (Int.natCast_nonneg z) (by exact_mod_cast h3)]
  simp

/-! ### Claim theorems -/

/-- Claim C1 (code bug exhibit): on the valid, distinct input stamps
`prev = "B"` (code `[66]`) and `next = "BA"` (codes `[66, 65]`), with every
random draw equal to `0`, `between` returns the stamp
`[66, 66, 1, …, 1]`, which sorts strictly **after** `max(prev, next) = "BA"`
instead of strictly between the two inputs.  (The degenerate
`minChar = prev.charCodeAt(0)` fallback applies because `prev` is a strict
prefix of `next`, and `minChar = 66 > maxChar = 65` makes the "divergent"
character at least `65`, so every draw produces a result above `"BA"`.) -/
theorem between_prefix_overshoot :
    between [66] [66, 65] (fun _ => (0:ℚ)) = Except.ok (66 :: 66 :: List.replicate 16 1) ∧
    lexLt [66, 65] (66 :: 66 :: List.replicate 16 1) := by
  constructor
  · have e1 : charCodeAt [66] 0 = some (66:ℚ) := by
      rw [show (66:ℚ) = ((66:ℕ):ℚ) by norm_num]; rfl
    have e2 : charCodeAt [66, 65] 1 = some (65:ℚ) := by
      rw [show (65:ℚ) = ((65:ℕ):ℚ) by norm_num]; rfl
    have hri : randomIntAt (some (66:ℚ)) (some (65:ℚ)) (fun _ => (0:ℚ)) 0
        = (some (66:ℚ), 1) := by
      simp only [randomIntAt]
      rw [if_neg (by norm_num : ¬ (66:ℚ) = 65)]
      rw [randomInt_zero_draw_q 66 65 (by norm_num)]
      norm_num
    have hfc : fromCharCode (some (66:ℚ)) = 66 := by
      simp only [fromCharCode]
      exact toUint16_q 66 66 (by norm_num) (by norm_num) (by norm_num)
    simp only [between]
    rw [if_neg (by decide : ¬ ([66] : List ℕ) = [66, 65])]
    simp only [if_neg (by decide : ¬ lexLt [66, 65] [66])]
    norm_num [commonPrefixLen]
    rw [e1, e2, hri]
    norm_num [betweenFix, hfc, randomSuffix_zero_draws, RANDOM_SUFFIX_LEN]
  · decide

/-- Claim C2: `between` fails with exactly the error
"prev and next must be different" if and only if the two inputs are equal;
on distinct inputs it returns normally.  (Every other operation of the
interface is embedded as a total function because its source contains no
`throw`; `between` holds the interface's only failure path.) -/
theorem between_error_iff (prev next : List ℕ) (g : ℕ → ℚ) :
    (prev = next → between prev next g = Except.error ("prev and next must be different")) ∧
    (prev ≠ next → ∃ r : List ℕ, between prev next g = Except.ok r) := by
  constructor
  · intro h
    simp only [between, if_pos h]
  · intro h
    unfold between
    rw [if_neg h]
    exact ⟨_, rfl⟩

/-- Witness for C2 at a concrete input. -/
theorem between_error_iff_witness :
    ([1] : List ℕ) ≠ [2] ∧ ∃ r : List ℕ, between [1] [2] (fun _ => (0:ℚ)) = Except.ok r :=
  ⟨by decide, (between_error_iff [1] [2] (fun _ => (0:ℚ))).2 (by decide)⟩

/-- Claim C3 (code bug exhibit): on the valid, distinct input stamps
`[65, 253]` and `[66]` (all codes in `[CHAR_CODE_MIN, CHAR_CODE_MAX)`),
with every random draw equal to `0`, `between` emits the reserved
code 254 = `CHAR_CODE_MAX`: the scan loop finds the character 253 below
`CHAR_CODE_MAX` and calls `randomInt(254, 254)`, whose degenerate
equal-arguments branch returns 254 itself, an out-of-range code. -/
theorem between_emits_reserved_char :
    between [65, 253] [66] (fun _ => (0:ℚ)) = Except.ok (65 :: 254 :: List.replicate 16 1) ∧
    254 ∈ (65 :: 254 :: List.replicate 16 1) ∧ CHAR_CODE_MAX ≤ 254 := by
  refine ⟨?_, by decide, by decide⟩
  have e1 : charCodeAt [65, 253] 0 = some (65:ℚ) := by
    rw [show (65:ℚ) = ((65:ℕ):ℚ) by norm_num]; rfl
  have e2 : charCodeAt [66] 0 = some (66:ℚ) := by
    rw [show (66:ℚ) = ((66:ℕ):ℚ) by norm_num]; rfl
  have hri : randomIntAt (some (65:ℚ)) (some (66:ℚ)) (fun _ => (0:ℚ)) 0 = (some (65:ℚ), 1) := by
    simp only [randomIntAt]
    rw [if_neg (by norm_num : ¬ (65:ℚ) = 66)]
    rw [randomInt_zero_draw_q 65 66 (by norm_num)]
    norm_num
  have hfc : fromCharCode (some (65:ℚ)) = 65 := by
    simp only [fromCharCode]
    exact toUint16_q 65 65 (by norm_num) (by norm_num) (by norm_num)
  have hfc2 : fromCharCode (some (254:ℚ)) = 254 := by
    simp only [fromCharCode]
    exact toUint16_q 254 254 (by norm_num) (by norm_num) (by norm_num)
  have hbf : betweenFix [253] (fun _ => (0:ℚ)) 1 = ([254], 1) := by
    simp only [betweenFix]
    rw [if_pos (by norm_num [CHAR_CODE_MAX] : (253:ℕ) < CHAR_CODE_MAX)]
    norm_num [randomIntAt, CHAR_CODE_MAX, hfc2]
  simp only [between]
  rw [if_neg (by decide : ¬ ([65, 253] : List ℕ) = [66])]
  simp only [if_neg (by decide : ¬ lexLt [66] [65, 253])]
  norm_num [commonPrefixLen]
  rw [e1, e2, hri]
  norm_num [hbf, hfc, randomSuffix_zero_draws, RANDOM_SUFFIX_LEN]

/-- Claim C4: `commonPrefixLen(a, b)` is the largest `n ≤ min(|a|, |b|)`
such that the first `n` characters of `a` and `b` coincide; in particular
`commonPrefixLen("abc", "abd") = 2`. -/
theorem commonPrefixLen_correct :
    (∀ s t : List ℕ, commonPrefixLen s t ≤ min s.length t.length ∧
      s.take (commonPrefixLen s t) = t.take (commonPrefixLen s t) ∧
      ∀ n : ℕ, n ≤ min s.length t.length → s.take n = t.take n → n ≤ commonPrefixLen s t) ∧
    commonPrefixLen [97, 98, 99] [97, 98, 100] = 2 := by
  constructor
  · intro s
    induction s with
    | nil =>
      intro t
      refine ⟨by simp [commonPrefixLen], by simp [commonPrefixLen], ?_⟩
      intro n hn _
      simpa [commonPrefixLen] using hn
    | cons a s ih =>
      intro t
      cases t with
      | nil =>
        refine ⟨by simp [commonPrefixLen], by simp [commonPrefixLen], ?_⟩
        intro n hn _
        simpa [commonPrefixLen] using hn
      | cons b t =>
        by_cases hab : a = b
        · subst hab
          obtain ⟨ih1, ih2, ih3⟩ := ih t
          refine ⟨?_, ?_, ?_⟩
          · simp only [commonPrefixLen, eq_self_iff_true, if_true, List.length_cons]
            omega
          · simp only [commonPrefixLen, eq_self_iff_true, if_true, List.take_succ_cons]
            rw [ih2]
          · intro n hn he
            cases n with
            | zero => simp
            | succ m =>
              simp only [commonPrefixLen, eq_self_iff_true, if_true]
              simp only [List.take_succ_cons, List.cons.injEq] at he
              simp only [List.length_cons] at hn
              have hm := ih3 m (by omega) he.2
              omega
        · refine ⟨by simp [commonPrefixLen, hab], by simp [commonPrefixLen, hab], ?_⟩
          intro n hn he
          cases n with
          | zero => simp [commonPrefixLen, hab]
          | succ m =>
            simp only [List.take_succ_cons, List.cons.injEq] at he
            exact absurd he.1 hab
  · norm_num [commonPrefixLen]

/-- Witness for C4 at a concrete input (the maximality clause applied at
`n = 1` for `[5, 5]`, `[5, 6]`). -/
theorem commonPrefixLen_correct_witness : 1 ≤ commonPrefixLen [5, 5] [5, 6] :=
  (commonPrefixLen_correct.1 [5, 5] [5, 6]).2.2 1 (by decide) (by decide)

/-- Claim C5: `from(value, key)` returns `encode(value) ++ key` whenever a
key is supplied (in particular an empty key gives exactly `encode(value)`);
with the key omitted it returns `encode(value)` followed by exactly
`RANDOM_SUFFIX_LEN = 16` characters, each in
`[CHAR_CODE_MIN, CHAR_CODE_MAX)`, whenever the draws lie in `[0, 1)`. -/
theorem fromValue_spec :
    (∀ (encode : ℚ → List ℕ) (value : ℚ) (key : List ℕ) (g : ℕ → ℚ),
        fromValue encode value (some key) g = encode value ++ key ∧
        fromValue encode value (some []) g = encode value) ∧
    RANDOM_SUFFIX_LEN = 16 ∧
    (∀ (encode : ℚ → List ℕ) (value : ℚ) (g : ℕ → ℚ), (∀ j, 0 ≤ g j ∧ g j < 1) →
        fromValue encode value none g = encode value ++ randomSuffix g 0 RANDOM_SUFFIX_LEN ∧
        (randomSuffix g 0 RANDOM_SUFFIX_LEN).length = RANDOM_SUFFIX_LEN ∧
        ∀ c ∈ randomSuffix g 0 RANDOM_SUFFIX_LEN, CHAR_CODE_MIN ≤ c ∧ c < CHAR_CODE_MAX) := by
  refine ⟨fun encode value key g => ⟨rfl, by simp [fromValue]⟩, rfl, ?_⟩
  intro encode value g hg
  exact ⟨rfl, randomSuffix_length g _ _, fun c hc => randomSuffix_mem g hg _ _ c hc⟩

/-- Witness for C5 at a concrete input. -/
theorem fromValue_spec_witness :
    fromValue (fun _ => []) 0 none (fun _ => (0:ℚ)) =
      (fun _ : ℚ => ([] : List ℕ)) 0 ++ randomSuffix (fun _ => (0:ℚ)) 0 RANDOM_SUFFIX_LEN :=
  (fromValue_spec.2.2 (fun _ => []) 0 (fun _ => (0:ℚ)) (fun _ => ⟨le_refl 0, by norm_num⟩)).1

/-- Claim C10: the literal output of `between` depends only on the
unordered pair of inputs and the draw stream: for distinct inputs and the
same draws, `between(a, b)` and `between(b, a)` return the identical
string, thanks to the initial normalizing swap.  (Determinism with respect
to the draws holds by construction: the embedding is a function of the
stream.) -/
theorem between_arg_order_irrelevant (a b : List ℕ) (g : ℕ → ℚ) (hab : a ≠ b) :
    between a b g = between b a g := by
  rcases trichotomous_of (List.Lex (· < ·) : List ℕ → List ℕ → Prop) a b with h | h | h
  · have h1 : ¬ lexLt b a := fun hh => (List.Lex.isAsymm (α := ℕ) (· < ·)).asymm _ _ h hh
    have h2 : lexLt a b := h
    simp only [between, if_neg hab, if_neg (Ne.symm hab), if_pos h2, if_neg h1]
  · exact absurd h hab
  · have h1 : lexLt b a := h
    have h2 : ¬ lexLt a b := fun hh => (List.Lex.isAsymm (α := ℕ) (· < ·)).asymm _ _ h hh
    simp only [between, if_neg hab, if_neg (Ne.symm hab), if_pos h1, if_neg h2]

/-- Witness for C10 at a concrete input. -/
theorem between_arg_order_irrelevant_witness :
    between [1] [2] (fun _ => (0:ℚ)) = between [2] [1] (fun _ => (0:ℚ)) :=
  between_arg_order_irrelevant [1] [2] (fun _ => (0:ℚ)) (by decide)

/-- Claim C8, counterexample: the claim "for every `min < max`, `randomInt`
returns an integer in `[⌈min⌉, ⌊max⌋)`" fails at the explicit input
`min = 5/2`, `max = 27/10` (draw `1/2`): there `⌈min⌉ = 3 > 2 = ⌊max⌋`,
the required half-open range is empty, and the function actually returns
`2`, which is not at or above `⌈min⌉`. -/
theorem randomInt_range_claim_false :
    (5/2 : ℚ) < 27/10 ∧ (0:ℚ) ≤ 1/2 ∧ (1/2:ℚ) < 1 ∧
    randomInt (5/2) (27/10) (1/2) = ((2:ℤ) : ℚ) ∧
    ¬ (∃ z : ℤ, randomInt (5/2) (27/10) (1/2) = (z : ℚ) ∧
        ⌈(5/2:ℚ)⌉ ≤ z ∧ z < ⌊(27/10:ℚ)⌋) := by
  have hfl : (⌊(27/10:ℚ)⌋ : ℤ) = 2 := by norm_num
  have hcl : (⌈(5/2:ℚ)⌉ : ℤ) = 3 := by rw [Int.ceil_eq_iff]; norm_num
  have hmid : (⌊(1/2 : ℚ) * ((2 - 3 : ℤ) : ℚ)⌋ : ℤ) = -1 := by
    rw [show ((2 - 3 : ℤ) : ℚ) = -1 by norm_num]
    rw [show (1/2 : ℚ) * (-1) = -1/2 by norm_num]
    rw [Int.floor_eq_iff]; norm_num
  have hval : randomInt (5/2) (27/10) (1/2) = ((2:ℤ) : ℚ) := by
    simp only [randomInt, if_neg (by norm_num : (5/2:ℚ) ≠ 27/10), hfl, hcl, hmid]
    norm_num
  refine ⟨by norm_num, by norm_num, by norm_num, hval, ?_⟩
  rintro ⟨z, hz, hz1, hz2⟩
  rw [hval] at hz
  have hz3 : z = 2 := by exact_mod_cast hz.symm
  subst hz3
  rw [hcl] at hz1
  exact absurd hz1 (by norm_num)

/-- Claim C8, amended: `randomInt(min, max)` returns `min` unchanged when
`min = max`; and whenever `⌈min⌉ < ⌊max⌋` (in particular for any integer
`min < max`) it returns an integer in `[⌈min⌉, ⌊max⌋)`.  (The original
claim's condition `min < max` is not enough when the interval contains no
integer gap, as the counterexample shows.) -/
theorem randomInt_spec (mn mx r : ℚ) (h0 : 0 ≤ r) (h1 : r < 1) :
    (mn = mx → randomInt mn mx r = mn) ∧
    (⌈mn⌉ < ⌊mx⌋ → ∃ z : ℤ, randomInt mn mx r = (z : ℚ) ∧ ⌈mn⌉ ≤ z ∧ z < ⌊mx⌋) := by
  constructor
  · intro h
    simp [randomInt, if_pos h]
  · intro h
    exact randomInt_core mn mx r h0 h1 h

/-- Witness for C8 at a concrete input. -/
theorem randomInt_spec_witness :
    ∃ z : ℤ, randomInt 0 2 (1/2) = (z : ℚ) ∧ ⌈(0:ℚ)⌉ ≤ z ∧ z < ⌊(2:ℚ)⌋ :=
  (randomInt_spec 0 2 (1/2) (by norm_num) (by norm_num)).2 (by norm_num)

/-- Claim C6, counterexample: assuming only the codec contract of §4.1
(injectivity and strict order preservation under sequence comparison),
`from(x) < from(y)` for `x < y` does **not** hold for every choice of the
suffixes.  The contract admits a codec `e` with `e 0 = [65]` a strict
prefix of `e 1 = [65, 66]`; with caller-supplied keys `[67]` for `x = 0`
and `[]` for `y = 1`, the first result sorts after the second. -/
theorem fromValue_contract_insufficient :
    ¬ (∀ encode : ℚ → List ℕ, Function.Injective encode →
        (∀ x y : ℚ, x < y → lexLt (encode x) (encode y)) →
        ∀ x y : ℚ, x < y → ∀ kx ky : Option (List ℕ), ∀ gx gy : ℕ → ℚ,
          (∀ j, 0 ≤ gx j ∧ gx j < 1) → (∀ j, 0 ≤ gy j ∧ gy j < 1) →
          lexLt (fromValue encode x kx gx) (fromValue encode y ky gy)) := by
  intro h
  obtain ⟨e, hmono, hinj, h0, h1⟩ := exists_bad_encode
  have hlt := h e hinj hmono 0 1 (by norm_num) (some [67]) (some [])
    (fun _ => 0) (fun _ => 0) (fun _ => by norm_num) (fun _ => by norm_num)
  rw [show fromValue e 0 (some [67]) (fun _ => (0:ℚ)) = e 0 ++ [67] from rfl,
    show fromValue e 1 (some []) (fun _ => (0:ℚ)) = e 1 ++ [] from rfl, h0, h1] at hlt
  exact absurd hlt (by decide)

/-- Claim C6, amended: with the codec contract strengthened by
prefix-freeness at the relevant pair — `encode x` sorts below `encode y`
and is not a prefix of it — `from(x) < from(y)` holds for every choice of
the suffixes (caller-supplied keys or random, with any draw streams). -/
theorem fromValue_order_preserved (encode : ℚ → List ℕ) (x y : ℚ)
    (kx ky : Option (List ℕ)) (gx gy : ℕ → ℚ)
    (hlt : lexLt (encode x) (encode y)) (hnp : ¬ encode x <+: encode y) :
    lexLt (fromValue encode x kx gx) (fromValue encode y ky gy) := by
  cases kx <;> cases ky <;> exact lex_append_strict hlt hnp _ _

/-- Witness for the amended C6 at a concrete input. -/
theorem fromValue_order_preserved_witness :
    lexLt (fromValue (fun q : ℚ => if q = 0 then [65] else [66]) 0 (some [1]) (fun _ => 0))
      (fromValue (fun q : ℚ => if q = 0 then [65] else [66]) 1 (some []) (fun _ => 0)) := by
  exact fromValue_order_preserved _ 0 1 (some [1]) (some []) (fun _ => 0) (fun _ => 0)
    (by rw [if_pos rfl, if_neg (by norm_num : ¬ (1:ℚ) = 0)]; exact List.Lex.rel (by norm_num))
    (by rw [if_pos rfl, if_neg (by norm_num : ¬ (1:ℚ) = 0)]; decide)

/-- Claim C7, counterexample: with only the codec contract assumed, a
strictly advancing time source does **not** make two successive `end()`
stamps increase for every outcome of the random suffixes: with the
prefix-related codec from `exists_bad_encode` at times `0 < 1`, the draws
`66/253` (first call) and `0` (second call) give
`end()#1 = [65] ++ 67…67` sorting after `end()#2 = [65, 66] ++ 1…1`. -/
theorem start_end_contract_insufficient :
    ¬ (∀ encode : ℚ → List ℕ, Function.Injective encode →
        (∀ x y : ℚ, x < y → lexLt (encode x) (encode y)) →
        ∀ t1 t2 : ℚ, t1 < t2 → ∀ g1 g2 : ℕ → ℚ,
          (∀ j, 0 ≤ g1 j ∧ g1 j < 1) → (∀ j, 0 ≤ g2 j ∧ g2 j < 1) →
          lexLt (endStamp encode t1 g1) (endStamp encode t2 g2) ∧
          lexLt (startStamp encode t2 g2) (startStamp encode t1 g1)) := by
  intro h
  obtain ⟨e, hmono, hinj, h0, h1⟩ := exists_bad_encode
  have hlt := (h e hinj hmono 0 1 (by norm_num) (fun _ => (66/253:ℚ)) (fun _ => (0:ℚ))
    (fun _ => ⟨by norm_num, by norm_num⟩) (fun _ => ⟨by norm_num, by norm_num⟩)).1
  rw [show endStamp e 0 (fun _ => (66/253:ℚ))
      = e 0 ++ randomSuffix (fun _ => (66/253:ℚ)) 0 RANDOM_SUFFIX_LEN from rfl,
    show endStamp e 1 (fun _ => (0:ℚ))
      = e 1 ++ randomSuffix (fun _ => (0:ℚ)) 0 RANDOM_SUFFIX_LEN from rfl,
    h0, h1, randomSuffix_q67_draws, randomSuffix_zero_draws] at hlt
  exact absurd hlt (by decide)

/-- Claim C7, amended: `end()` is `from(currentTime)` and `start()` is
`from(-currentTime)` (both definitional); and under a strictly advancing
time source the second `end()` sorts after the first and the second
`start()` before the first, for every outcome of the random suffixes,
provided the codec is additionally prefix-free at the two encoded values
(the codec contract alone does not suffice, per the counterexample). -/
theorem start_end_monotone (encode : ℚ → List ℕ) (t1 t2 : ℚ) (g1 g2 g3 g4 : ℕ → ℚ)
    (_ht : t1 < t2)
    (hlt : lexLt (encode t1) (encode t2)) (hnp : ¬ encode t1 <+: encode t2)
    (hlt2 : lexLt (encode (-t2)) (encode (-t1))) (hnp2 : ¬ encode (-t2) <+: encode (-t1)) :
    endStamp encode t1 g1 = fromValue encode t1 none g1 ∧
    startStamp encode t1 g1 = fromValue encode (-t1) none g1 ∧
    lexLt (endStamp encode t1 g1) (endStamp encode t2 g2) ∧
    lexLt (startStamp encode t2 g3) (startStamp encode t1 g4) :=
  ⟨rfl, rfl, lex_append_strict hlt hnp _ _, lex_append_strict hlt2 hnp2 _ _⟩

/-- Witness for the amended C7 at a concrete input. -/
theorem start_end_monotone_witness :
    lexLt (endStamp (fun q : ℚ => if q < 0 then [64] else if q < 1 then [65] else [66]) 0
        (fun _ => 0))
      (endStamp (fun q : ℚ => if q < 0 then [64] else if q < 1 then [65] else [66]) 1
        (fun _ => 0)) ∧
    lexLt (startStamp (fun q : ℚ => if q < 0 then [64] else if q < 1 then [65] else [66]) 1
        (fun _ => 0))
      (startStamp (fun q : ℚ => if q < 0 then [64] else if q < 1 then [65] else [66]) 0
        (fun _ => 0)) := by
  have h := start_end_monotone (fun q : ℚ => if q < 0 then [64] else if q < 1 then [65] else [66])
    0 1 (fun _ => 0) (fun _ => 0) (fun _ => 0) (fun _ => 0) (by norm_num)
    (by norm_num [lexLt, List.Lex.singleton_iff])
    (by norm_num [List.cons_prefix_cons])
    (by norm_num [lexLt, List.Lex.singleton_iff])
    (by norm_num [List.cons_prefix_cons])
  exact ⟨h.2.2.1, h.2.2.2⟩

/-- Claim C9 (code bug exhibit): on the valid, distinct input stamps
`prev = [1, …, 1]` (19 ones) and `next = [2]`, with every random draw
equal to `0`, `between` returns an 18-character stamp — shared prefix of
length 0, one divergent character, one fixing character, and the
16-character random suffix — which is strictly **shorter** than `prev`,
contradicting "the result is strictly longer than the smaller input". -/
theorem between_shorter_than_prev :
    between (List.replicate 19 1) [2] (fun _ => (0:ℚ)) =
      Except.ok (1 :: 2 :: List.replicate 16 1) ∧
    (1 :: 2 :: List.replicate 16 1).length < (List.replicate 19 1).length := by
  refine ⟨?_, by decide⟩
  rw [show List.replicate 19 1 = ([1,1,1,1,1,1,1,1,1,1,1,1,1,1,1,1,1,1,1] : List ℕ) from rfl]
  have e1 : charCodeAt [1,1,1,1,1,1,1,1,1,1,1,1,1,1,1,1,1,1,1] 0 = some (1:ℚ) := by
    rw [show (1:ℚ) = ((1:ℕ):ℚ) by norm_num]; rfl
  have e2 : charCodeAt [2] 0 = some (2:ℚ) := by
    rw [show (2:ℚ) = ((2:ℕ):ℚ) by norm_num]; rfl
  have hri : randomIntAt (some (1:ℚ)) (some (2:ℚ)) (fun _ => (0:ℚ)) 0 = (some (1:ℚ), 1) := by
    simp only [randomIntAt]
    rw [if_neg (by norm_num : ¬ (1:ℚ) = 2)]
    rw [randomInt_zero_draw_q 1 2 (by norm_num)]
    norm_num
  have hfc : fromCharCode (some (1:ℚ)) = 1 := by
    simp only [fromCharCode]
    exact toUint16_q 1 1 (by norm_num) (by norm_num) (by norm_num)
  have hfc2 : fromCharCode (some (2:ℚ)) = 2 := by
    simp only [fromCharCode]
    exact toUint16_q 2 2 (by norm_num) (by norm_num) (by norm_num)
  have hbf : betweenFix [1,1,1,1,1,1,1,1,1,1,1,1,1,1,1,1,1,1] (fun _ => (0:ℚ)) 1 = ([2], 2) := by
    simp only [betweenFix]
    rw [if_pos (by norm_num [CHAR_CODE_MAX] : (1:ℕ) < CHAR_CODE_MAX)]
    have hri2 : randomIntAt (some (2:ℚ)) (some (254:ℚ)) (fun _ => (0:ℚ)) 1
        = (some (2:ℚ), 2) := by
      simp only [randomIntAt]
      rw [if_neg (by norm_num : ¬ (2:ℚ) = 254)]
      rw [randomInt_zero_draw_q 2 254 (by norm_num)]
      norm_num
    norm_num [CHAR_CODE_MAX, hri2, hfc2]
  simp only [between]
  rw [if_neg (by decide : ¬ ([1,1,1,1,1,1,1,1,1,1,1,1,1,1,1,1,1,1,1] : List ℕ) = [2])]
  simp only [if_neg (by decide : ¬ lexLt [2] [1,1,1,1,1,1,1,1,1,1,1,1,1,1,1,1,1,1,1])]
  norm_num [commonPrefixLen]
  rw [e1, e2, hri]
  norm_num [hbf, hfc, randomSuffix_zero_draws, RANDOM_SUFFIX_LEN]
